import Mathlib

/-!
Verification of the `ries` resonance cross-section engine
(`ries.cross_section`, `ries.resonance.*`, `ries.integration.darboux`).

Python floats are modelled as exact rationals (`ℚ`); the special IEEE
values `±inf` that `scipy` distribution quantile functions can return are
modelled by the extra constructors of `PyVal`.  Fallible Python code
(`KeyError`, `ZeroDivisionError`, `IndexError`) is modelled with `Option`.
Python dictionaries are modelled as association lists in insertion order,
with assignment updating an existing key in place and appending a fresh
one.  The transcendental machinery of `scipy` (normal and Cauchy quantile
functions, `scipy.optimize.newton`) has no closed form; it enters the
theorems as function parameters, and the warning channel is modelled as an
explicit list of warning values returned next to the result.
-/

namespace Ries

/-- A Python float as handled by the quantile functions: either a finite
value or one of the two IEEE infinities. -/
inductive PyVal where
  | fin (q : ℚ)
  | posInf
  | negInf
deriving DecidableEq

/-- The Python comparison `v < 0.0` on a possibly infinite float. -/
def PyVal.ltZero : PyVal → Bool
  | .fin q => decide (q < 0)
  | .negInf => true
  | .posInf => false

/-- `numpy.isinf`. -/
def PyVal.isInf : PyVal → Bool
  | .fin _ => false
  | .posInf => true
  | .negInf => true

/-! ## `ries.integration.darboux` -/

/-- `ries.integration.darboux.darboux` for function values given as an
array: `dx = (x - np.roll(x, 1))[1:]` is the list of adjacent differences,
the two rows of `lower_upper` are `fx[:-1]` and `fx[1:]`, and the result is
the lower sum together with the absolute difference of upper and lower
sum. -/
def darboux (fx : List ℚ) (x : List ℚ) : ℚ × ℚ :=
  let dx := (x.zip x.tail).map fun p => p.2 - p.1
  let pairs := fx.zip fx.tail
  let lower_sum := ((pairs.zip dx).map fun p => min p.1.1 p.1.2 * p.2).sum
  let upper_sum := ((pairs.zip dx).map fun p => max p.1.1 p.1.2 * p.2).sum
  (lower_sum, |upper_sum - lower_sum|)

/-- Sampling a function at the partition indices `0, …, n-1`, i.e. the
array `[g 0, g 1, …, g (n-1)]` handed to `darboux`. -/
def sample (g : ℕ → ℚ) (n : ℕ) : List ℚ :=
  (List.range n).map g

/-! ## `ries.cross_section`

`CrossSection` is an abstract class; its concrete subclasses are
`ConstantCrossSection` (constructor `const`) and user models such as the
resonance cross sections, modelled by an arbitrary evaluation function
(constructor `abstr`).  `CrossSectionWeightedSum` (constructor `ws`) is
**not** a subclass of `CrossSection`, but because `CrossSection.__add__`
stores an arbitrary right operand in the new `reactions` list, that list
can contain either kind of object, so one inductive type holds all three
shapes. -/

inductive Obj where
  | const (c : ℚ)
  | abstr (f : ℚ → ℚ)
  | ws (reactions : List Obj) (scale_factors : List ℚ)

/-- The right-hand operand of `+`: a Python scalar
(`isinstance(other, (int, float))`), or a `CrossSection` /
`CrossSectionWeightedSum` object. -/
inductive Operand where
  | num (q : ℚ)
  | obj (o : Obj)

/-- `isinstance(·, CrossSectionWeightedSum)`: `const` and `abstr` are
`CrossSection` instances, `ws` is not. -/
def Obj.isWS : Obj → Bool
  | .ws _ _ => true
  | _ => false

/-- `CrossSectionWeightedSum.__add__` (first three arms: the copied lists
are extended by the wrapped scalar, by the single cross section with scale
factor 1, or by the other sum's `reactions` and `scale_factors`) and
`CrossSection.__add__` (last two arms: a scalar is wrapped in a
`ConstantCrossSection`, any other operand is put next to `self` unchanged
in a fresh two-element weighted sum).  `__radd__` delegates to `__add__`
in both classes. -/
def Obj.add : Obj → Operand → Obj
  | .ws r s, .num q => .ws (r ++ [.const q]) (s ++ [1])
  | .ws r s, .obj (.ws r2 s2) => .ws (r ++ r2) (s ++ s2)
  | .ws r s, .obj o => .ws (r ++ [o]) (s ++ [1])
  | c, .num q => .ws [c, .const q] [1, 1]
  | c, .obj o => .ws [c, o] [1, 1]

/-- `CrossSection.__mul__` (wraps `self` with the scalar as its scale
factor) and `CrossSectionWeightedSum.__mul__` (multiplies every scale
factor by the scalar).  `__rmul__` delegates to `__mul__`. -/
def Obj.mulScalar : Obj → ℚ → Obj
  | .ws r s, k => .ws r (s.map fun sf => k * sf)
  | c, k => .ws [c] [k]

mutual

/-- Evaluation: `ConstantCrossSection.__call__` returns the constant for
any energy, a concrete cross-section model applies its function, and
`CrossSectionWeightedSum.__call__` accumulates
`scale_factors[i] * reaction(energy)` over `enumerate(self.reactions)`. -/
def Obj.eval : Obj → ℚ → Option ℚ
  | .const c, _ => some c
  | .abstr f, E => some (f E)
  | .ws rs ss, E => Obj.evalList rs ss E

/-- The accumulation loop of `CrossSectionWeightedSum.__call__`: indexing
`scale_factors[i]` past its end raises `IndexError` (`none`); scale
factors beyond the end of the reactions list are never read. -/
def Obj.evalList : List Obj → List ℚ → ℚ → Option ℚ
  | [], _, _ => some 0
  | _ :: _, [], _ => none
  | r :: rs, s :: ss, E =>
      match r.eval E with
      | none => none
      | some v =>
          match Obj.evalList rs ss E with
          | none => none
          | some rest => some (s * v + rest)

end

/-- `CrossSectionWeightedSum.__init__` called with a `reactions` list:
`scale_factors` defaults to `[1.0] * len(reactions)` when omitted. -/
def wsInit (rs : List Obj) (sf : Option (List ℚ)) : Obj :=
  .ws rs (sf.getD (List.replicate rs.length 1))

/-- Well-formedness of an object reachable through the public operations:
every weighted sum stores as many scale factors as reactions. -/
inductive Obj.WF : Obj → Prop where
  | const (c : ℚ) : Obj.WF (.const c)
  | abstr (f : ℚ → ℚ) : Obj.WF (.abstr f)
  | ws (rs : List Obj) (ss : List ℚ) (hlen : rs.length = ss.length)
      (hmem : ∀ o ∈ rs, Obj.WF o) : Obj.WF (.ws rs ss)

/-- The `reactions` attribute of a weighted sum. -/
def Obj.reactionsList : Obj → List Obj
  | .ws r _ => r
  | _ => []

/-- A weighted sum is flat when none of its stored reactions is itself a
weighted sum; plain cross sections are trivially flat. -/
def Obj.flat : Obj → Prop
  | .ws r _ => ∀ o ∈ r, o.isWS = false
  | _ => True

/-- Flatness of an operand of `+`. -/
def Operand.flat : Operand → Prop
  | .num _ => True
  | .obj o => o.flat

/-- Whether the operand of `+` is a `CrossSectionWeightedSum`. -/
def Operand.isWS : Operand → Bool
  | .num _ => false
  | .obj o => o.isWS

/-- The length invariant of a weighted sum, trivial for the other
shapes. -/
def Obj.topLenEq : Obj → Prop
  | .ws r s => r.length = s.length
  | _ => True

/-- The length invariant of an operand of `+`. -/
def Operand.topLenEq : Operand → Prop
  | .num _ => True
  | .obj o => o.topLenEq

/-! ## `ries.constituents.state` -/

/-- `ries.constituents.state`: a nuclear state with its unique identifier
`J_pi`, doubled spin `two_J`, parity, excitation energy in MeV and the
partial-widths dictionary of an excited state (empty for a ground
state). -/
structure State where
  J_pi : String
  two_J : ℤ
  parity : ℤ
  excitation_energy : ℚ
  partial_widths : List (String × ℚ)

/-- `State.width`: the total width is the sum of the partial widths. -/
def State.width (s : State) : ℚ := (s.partial_widths.map Prod.snd).sum

/-! ## `ries.resonance.resonance`

The `probability_distribution` attribute is any object providing `pdf`,
`cdf` and `ppf`; the `scipy.stats` distributions take the location/scale
parameters as trailing arguments, with the standardized defaults
`loc = 0`, `scale = 1` when they are omitted. -/

/-- The distribution capability: `pdf`, `cdf` and `ppf`, each taking the
parameter tuple the resonance stores in
`probability_distribution_parameters`. -/
structure Distribution where
  pdf : ℚ → List ℚ → ℚ
  cdf : ℚ → List ℚ → ℚ
  ppf : ℚ → List ℚ → PyVal

/-- The `scipy` location/scale convention: an omitted parameter tuple
means `loc = 0`, `scale = 1`. -/
def paramsLocScale : List ℚ → ℚ × ℚ
  | [] => (0, 1)
  | [l] => (l, 1)
  | l :: s :: _ => (l, s)

/-- `scipy.stats.uniform`: the box distribution on
`[loc, loc + scale]`. -/
def uniformDist : Distribution where
  pdf := fun x ps =>
    let p := paramsLocScale ps
    if p.1 ≤ x ∧ x ≤ p.1 + p.2 then 1 / p.2 else 0
  cdf := fun x ps =>
    let p := paramsLocScale ps
    max 0 (min 1 ((x - p.1) / p.2))
  ppf := fun q ps =>
    let p := paramsLocScale ps
    .fin (p.1 + q * p.2)

/-- The attributes a `Resonance` object carries after `__init__`. -/
structure Resonance where
  initial_state : State
  intermediate_state : State
  final_state : Option State
  resonance_energy : ℚ
  energy_integrated_cross_section_constant : ℚ
  statistical_factor : ℚ
  final_state_branching_ratio : ℚ
  energy_integrated_cross_section : ℚ
  probability_distribution : Distribution
  probability_distribution_parameters : List ℚ

/-- `Resonance.get_statistical_factor`:
`(intermediate.two_J + 1.0) / (initial.two_J + 1.0)`. -/
def get_statistical_factor (initial intermediate : State) : ℚ :=
  ((intermediate.two_J : ℚ) + 1) / ((initial.two_J : ℚ) + 1)

/-- `Resonance.get_final_state_branching_ratio`: `1.0` without a final
state, otherwise `partial_widths[final.J_pi] / width`; a missing
dictionary key raises `KeyError` and a zero total width raises
`ZeroDivisionError` (both `none`). -/
def get_final_state_branching_ratio_opt (intermediate : State) :
    Option State → Option ℚ
  | none => some 1
  | some fs =>
      match intermediate.partial_widths.lookup fs.J_pi with
      | none => none
      | some wf =>
          if intermediate.width = 0 then none else some (wf / intermediate.width)

/-- `Resonance.__init__`: the resonance energy is the recoil-corrected
excitation-energy difference, `C` stands for the float value of the
constant `(np.pi * hbar_c)**2` stored in
`energy_integrated_cross_section_constant`, and
`get_energy_integrated_cross_section` computes
`constant / resonance_energy**2 * statistical_factor *
partial_widths[initial.J_pi] * branching_ratio`.  The default probability
distribution is `scipy.stats.uniform` with the parameter tuple
`(resonance_energy - 0.5, 1.0)`.  A failing dictionary access or a
division by zero aborts construction (`none`). -/
def mkResonance (C : ℚ) (recoil : ℚ → ℚ) (initial intermediate : State)
    (final : Option State) : Option Resonance :=
  let Er := recoil (intermediate.excitation_energy - initial.excitation_energy)
  if ((initial.two_J : ℚ) + 1) = 0 then none
  else
    match get_final_state_branching_ratio_opt intermediate final with
    | none => none
    | some br =>
        match intermediate.partial_widths.lookup initial.J_pi with
        | none => none
        | some w =>
            if Er ^ 2 = 0 then none
            else some {
              initial_state := initial
              intermediate_state := intermediate
              final_state := final
              resonance_energy := Er
              energy_integrated_cross_section_constant := C
              statistical_factor := get_statistical_factor initial intermediate
              final_state_branching_ratio := br
              energy_integrated_cross_section :=
                C / Er ^ 2 * get_statistical_factor initial intermediate * w * br
              probability_distribution := uniformDist
              probability_distribution_parameters := [Er - 1/2, 1] }

/-- `Resonance.__call__`: with `input_is_absolute_energy=False` the input
is shifted by the resonance energy; the result is the energy-integrated
cross section times the distribution's PDF at the stored parameters. -/
def Resonance.call (r : Resonance) (E : ℚ) (input_is_absolute_energy : Bool) : ℚ :=
  let Ein := if input_is_absolute_energy then E else E + r.resonance_energy
  r.energy_integrated_cross_section
    * r.probability_distribution.pdf Ein r.probability_distribution_parameters

/-- The two `UserWarning`s `Resonance.coverage_interval` can emit; the
negative-lower-limit warning carries the percentage the message embeds. -/
inductive RWarning where
  | negativeLowerLimit (max_coverage_percent : ℚ)
  | infiniteUpperLimit
deriving DecidableEq

/-- `Resonance.coverage_interval`: the quantile pair
`ppf(0.5*(1-c)), ppf(0.5*(1+c))` is computed with the stored parameters
and returned unmodified; if the lower limit is below zero a warning is
emitted whose message embeds
`100 * (1 - probability_distribution.cdf(0.0))` — note that the source
passes **no** parameters to `cdf` here — and if the upper limit is
infinite a second warning is emitted. -/
def Resonance.coverage_interval (r : Resonance) (coverage : ℚ) :
    (PyVal × PyVal) × List RWarning :=
  let lo := r.probability_distribution.ppf (1/2 * (1 - coverage))
    r.probability_distribution_parameters
  let hi := r.probability_distribution.ppf (1/2 * (1 + coverage))
    r.probability_distribution_parameters
  let w1 : List RWarning :=
    if lo.ltZero then
      [.negativeLowerLimit (100 * (1 - r.probability_distribution.cdf 0 []))]
    else []
  let w2 : List RWarning := if hi.isInf then [.infiniteUpperLimit] else []
  ((lo, hi), w1 ++ w2)

/-- `numpy.linspace` on exact rationals: `n` evenly spaced points from `a`
to `b` inclusive. -/
def linspace (a b : ℚ) (n : ℕ) : List ℚ :=
  if n = 0 then []
  else if n = 1 then [a]
  else (List.range n).map fun (i : ℕ) => a + (b - a) * (i : ℚ) / ((n : ℚ) - 1)

/-- The first argument of `Resonance.equidistant_probability_grid`: a
scalar coverage or an explicit pair of energy limits. -/
inductive GridSpec where
  | coverage (c : ℚ)
  | limits (lo hi : ℚ)

/-- `Resonance.equidistant_probability_grid`: for a scalar coverage the
quantile pair `(0.5*(1-c), 0.5*(1+c))` is used directly; for explicit
limits their CDF values are used, and after mapping the linearly spaced
quantiles through the PPF the first and last grid entries are overwritten
with the exact limits (`grid[0] = limits[0]`, then
`grid[-1] = limits[1]`). -/
def Resonance.equidistant_probability_grid (r : Resonance) :
    GridSpec → ℕ → List PyVal
  | .coverage c, n =>
      (linspace (1/2 * (1 - c)) (1/2 * (1 + c)) n).map fun q =>
        r.probability_distribution.ppf q r.probability_distribution_parameters
  | .limits lo hi, n =>
      let ql := r.probability_distribution.cdf lo r.probability_distribution_parameters
      let qh := r.probability_distribution.cdf hi r.probability_distribution_parameters
      let g := (linspace ql qh n).map fun q =>
        r.probability_distribution.ppf q r.probability_distribution_parameters
      (g.set 0 (.fin lo)).set (g.length - 1) (.fin hi)

/-- The specification's closed form of the energy-integrated cross
section, written independently of `mkResonance` for the refinement claim:
`C · (2 J_2 + 1)/(2 J_0 + 1) · Γ_{2→0} · branching_ratio / E_r²` with the
statistical factor taken from the stored doubled spins, the branching
ratio `1` without a final state and `Γ_{2→1}/Γ_2` with one, and `E_r` the
plain excitation-energy difference (identity recoil). -/
def spec_energy_integrated_cross_section (C : ℚ) (initial intermediate : State)
    (final : Option State) : Option ℚ :=
  match intermediate.partial_widths.lookup initial.J_pi with
  | none => none
  | some w =>
      match final with
      | none => some (C * (((intermediate.two_J : ℚ) + 1) / ((initial.two_J : ℚ) + 1)) * w * 1
          / (intermediate.excitation_energy - initial.excitation_energy) ^ 2)
      | some fs =>
          match intermediate.partial_widths.lookup fs.J_pi with
          | none => none
          | some wf => some (C * (((intermediate.two_J : ℚ) + 1) / ((initial.two_J : ℚ) + 1))
              * w * (wf / intermediate.width)
              / (intermediate.excitation_energy - initial.excitation_energy) ^ 2)

/-! ## `ries.resonance.pseudo_voigt`

The Thompson parameters `Gamma`, `eta` and the widths are floats computed
in `__init__` from square roots and logarithms; they enter here as the
stored field values.  The standard normal and Cauchy quantile functions
and the float `np.sqrt(2.0)` have no closed form over `ℚ` and are
parameters of the definitions; `scipy.optimize.newton` is an external root
finder whose outcome — a `RuntimeError`, or a result with convergence
information — is likewise passed in. -/

/-- The fields of `PseudoVoigtDistribution` the `ppf` path reads. -/
structure PseudoVoigtDistribution where
  resonance_energy : ℚ
  eta : ℚ
  gamma_G : ℚ
  gamma_L : ℚ

/-- `PseudoVoigtDistribution.pseudo_voigt_expression` for a method of the
two `scipy.stats` distributions: the linear combination
`(1-eta) * norm.method(x, loc=E_r, scale=gamma_G/sqrt(2)) +
eta * cauchy.method(x, loc=E_r, scale=0.5*gamma_L)`. -/
def pseudo_voigt_expression (norm_method cauchy_method : ℚ → ℚ → ℚ → ℚ) (sqrt2 : ℚ)
    (pv : PseudoVoigtDistribution) (x : ℚ) : ℚ :=
  (1 - pv.eta) * norm_method x pv.resonance_energy (pv.gamma_G / sqrt2)
    + pv.eta * cauchy_method x pv.resonance_energy (1/2 * pv.gamma_L)

/-- `PseudoVoigtDistribution.ppf` on a scalar quantile.  `newton` is the
outcome of the `scipy.optimize.newton` call with `full_output=True`: a
raised `RuntimeError` (`.error`), or a root together with its
`RootResults.converged` flag.  On a `RuntimeError` the warning is emitted
(second component `true`) and the fallback linear combination of PPFs is
returned; on a converged result the root is returned; a non-converged
result without an exception falls through to Python's implicit `None`. -/
def PseudoVoigtDistribution.ppf_scalar (norm_ppf cauchy_ppf : ℚ → ℚ → ℚ → ℚ)
    (sqrt2 : ℚ) (pv : PseudoVoigtDistribution) (quantile : ℚ)
    (newton : Except Unit (ℚ × Bool)) : Option ℚ × Bool :=
  match newton with
  | .ok res => if res.2 then (some res.1, false) else (none, false)
  | .error _ =>
      (some (pseudo_voigt_expression norm_ppf cauchy_ppf sqrt2 pv quantile), true)

/-- `PseudoVoigtDistribution.ppf` on an array of quantiles: `newton` now
carries the root array and the convergence flags, and the success test is
`False not in newton_result[1]`.  On a `RuntimeError` the fallback
expression is applied to **every** quantile of the call. -/
def PseudoVoigtDistribution.ppf_array (norm_ppf cauchy_ppf : ℚ → ℚ → ℚ → ℚ)
    (sqrt2 : ℚ) (pv : PseudoVoigtDistribution) (quantile : List ℚ)
    (newton : Except Unit (List ℚ × List Bool)) : Option (List ℚ) × Bool :=
  match newton with
  | .ok res => if false ∈ res.2 then (none, false) else (some res.1, false)
  | .error _ =>
      (some (quantile.map (pseudo_voigt_expression norm_ppf cauchy_ppf sqrt2 pv)), true)

/-! ## `ries.resonance.photoabsorption_cross_section` -/

/-- Python dictionary assignment `d[k] = v` on an insertion-ordered
association list: an existing key keeps its position, a fresh key is
appended. -/
def dictSet {α : Type} : List (String × α) → String → α → List (String × α)
  | [], k, v => [(k, v)]
  | (k2, v2) :: rest, k, v =>
      if k2 = k then (k, v) :: rest else (k2, v2) :: dictSet rest k v

/-- `ries.constituents.isotope.Isotope` as
`PhotoabsorptionCrossSectionIsotope` consumes it: the `excited_states`
dictionary maps state labels to `State` records. -/
structure Isotope where
  AX : String
  amu : ℚ
  ground_state : State
  excited_states : List (String × State)

/-- `PhotoabsorptionCrossSectionIsotope.get_resonances`: for every excited
state whose `partial_widths` dictionary **contains** the ground state's
`J_pi` (regardless of the stored value), a resonance model is built and
stored under the excited state's `J_pi`.  The constructed model is
represented by its evaluation function. -/
def get_resonances (iso : Isotope) (model : State → State → (ℚ → ℚ)) :
    List (String × (ℚ → ℚ)) :=
  iso.excited_states.foldl
    (fun resonances kv =>
      if (kv.2.partial_widths.lookup iso.ground_state.J_pi).isSome then
        dictSet resonances kv.2.J_pi (model iso.ground_state kv.2)
      else resonances) []

/-- `PhotoabsorptionCrossSectionIsotope.__call__`: the sum of all stored
resonance models evaluated at the energy. -/
def isotope_call (iso : Isotope) (model : State → State → (ℚ → ℚ)) (energy : ℚ) : ℚ :=
  ((get_resonances iso model).map fun kv => kv.2 energy).sum

/-- `ries.constituents.element.Element` as
`PhotoabsorptionCrossSectionElement` consumes it: the isotope dictionary
and the abundance dictionary. -/
structure Element where
  isotopes : List (String × Isotope)
  abundances : List (String × ℚ)

/-- `PhotoabsorptionCrossSectionElement.get_photoabsorption_cross_sections`:
one isotope aggregation per isotope, stored under the isotope's `AX`
label; `models` supplies the per-isotope resonance model class and
parameters. -/
def element_pacs (el : Element) (models : String → State → State → (ℚ → ℚ)) :
    List (String × (ℚ → ℚ)) :=
  el.isotopes.foldl
    (fun pacs kv => dictSet pacs kv.2.AX (isotope_call kv.2 (models kv.1))) []

/-- The loop of `PhotoabsorptionCrossSectionElement.__call__`, iterating
over the keys of the isotope dictionary; a key missing from the abundance
dictionary or from the stored cross sections raises `KeyError`
(`none`). -/
def element_call_go (el : Element) (models : String → State → State → (ℚ → ℚ))
    (energy : ℚ) : List (String × Isotope) → Option ℚ
  | [] => some 0
  | (k, _) :: rest =>
      match el.abundances.lookup k with
      | none => none
      | some ab =>
          match (element_pacs el models).lookup k with
          | none => none
          | some xs =>
              match element_call_go el models energy rest with
              | none => none
              | some acc => some (ab * xs energy + acc)

/-- `PhotoabsorptionCrossSectionElement.__call__`: the abundance-weighted
sum over all isotopes. -/
def element_call (el : Element) (models : String → State → State → (ℚ → ℚ))
    (energy : ℚ) : Option ℚ :=
  element_call_go el models energy el.isotopes

/-! ## Concrete inputs used by the closed theorems -/

/-- A ground state `0⁺` for the witness resonance. -/
def wit_ground : State := ⟨"0", 0, 1, 0, []⟩

/-- An excited state at `2 MeV` with partial width `1` back to the ground
state. -/
def wit_excited : State := ⟨"2", 2, 1, 2, [("0", 1)]⟩

/-- The resonance `mkResonance 1 id wit_ground wit_excited none`
constructs. -/
def wit_resonance : Resonance where
  initial_state := wit_ground
  intermediate_state := wit_excited
  final_state := none
  resonance_energy := 2
  energy_integrated_cross_section_constant := 1
  statistical_factor := 3
  final_state_branching_ratio := 1
  energy_integrated_cross_section := 3/4
  probability_distribution := uniformDist
  probability_distribution_parameters := [3/2, 1]

/-- Ground state of the coverage-warning example. -/
def c4_ground : State := ⟨"0", 0, 1, 0, []⟩

/-- Excited state at `0.2 MeV`: the default box distribution around it
reaches below zero, so `coverage_interval(0.9)` warns. -/
def c4_excited : State := ⟨"2", 2, 1, 1/5, [("0", 1)]⟩

/-- The ground state of ¹⁰B (`tests/boron.py`). -/
def b10_ground : State := ⟨"3^+_1", 6, -1, 0, []⟩

/-- The `1^+_1` state of ¹⁰B: its partial width back to the ground state
is stored as exactly `0.0` (`tests/boron.py`). -/
def b10_excited : State := ⟨"1^+_1", 2, 1, 718380/1000000, [("3^+_1", 0)]⟩

/-- ¹⁰B with its single listed excited state. -/
def b10 : Isotope := ⟨"10B", 10, b10_ground, [("1^+_1", b10_excited)]⟩

/-- Witness ground state for the aggregation theorem. -/
def wit8_ground : State := ⟨"A", 1, 1, 0, []⟩

/-- Witness excited state with a ground-state decay branch. -/
def wit8_e1 : State := ⟨"B", 3, 1, 2, [("A", 1)]⟩

/-- Witness excited state without a ground-state decay branch. -/
def wit8_e2 : State := ⟨"C", 5, -1, 3, [("X", 2)]⟩

/-- Witness isotope with one included and one excluded excited state. -/
def wit8_iso : Isotope := ⟨"1Q", 1, wit8_ground, [("B", wit8_e1), ("C", wit8_e2)]⟩

/-- Witness element holding the witness isotope at abundance `1/2`. -/
def wit8_el : Element := ⟨[("1Q", wit8_iso)], [("1Q", 1/2)]⟩

/-- Witness resonance-model family: the model evaluates to the excited
state's excitation energy times the energy. -/
def wit8_model (_ : String) : State → State → (ℚ → ℚ) :=
  fun _ st E => st.excitation_energy * E

/-! ## Theorems -/

lemma zip_map_range_succ : ∀ (m : ℕ) (g : ℕ → ℚ),
    ((List.range (m + 1)).map g).zip ((List.range m).map fun i => g (i + 1))
      = (List.range m).map fun i => (g i, g (i + 1)) := by
  intro m
  induction m with
  | zero => intro g; simp
  | succ k ih =>
      intro g
      have h1 : (List.range (k + 1 + 1)).map g
          = g 0 :: (List.range (k + 1)).map (fun i => g (i + 1)) := by
        rw [List.range_succ_eq_map]
        simp only [List.map_cons, List.map_map]
        exact congrArg _ (List.map_congr_left fun i _ => rfl)
      have h2 : (List.range (k + 1)).map (fun i => g (i + 1))
          = g 1 :: (List.range k).map (fun i => g (i + 1 + 1)) := by
        rw [List.range_succ_eq_map]
        simp only [List.map_cons, List.map_map]
        exact congrArg _ (List.map_congr_left fun i _ => rfl)
      have h3 : (List.range (k + 1)).map (fun i => (g i, g (i + 1)))
          = (g 0, g 1) :: (List.range k).map (fun i => (g (i + 1), g (i + 1 + 1))) := by
        rw [List.range_succ_eq_map]
        simp only [List.map_cons, List.map_map]
        exact congrArg _ (List.map_congr_left fun i _ => rfl)
      rw [h1, h2, List.zip_cons_cons, ← h2, ih (fun i => g (i + 1)), h3]

lemma sample_zip_tail (g : ℕ → ℚ) (n : ℕ) :
    (sample g n).zip (sample g n).tail
      = (List.range (n - 1)).map fun i => (g i, g (i + 1)) := by
  cases n with
  | zero => simp [sample]
  | succ m =>
      have htail : ((List.range (m + 1)).map g).tail
          = (List.range m).map fun i => g (i + 1) := by
        rw [List.range_succ_eq_map]
        simp only [List.map_cons, List.map_map, List.tail_cons]
        exact List.map_congr_left fun i _ => rfl
      rw [sample, htail, Nat.succ_sub_one, zip_map_range_succ m g]

lemma sum_map_range (g : ℕ → ℚ) (n : ℕ) :
    ((List.range n).map g).sum = ∑ i ∈ Finset.range n, g i := by
  induction n with
  | zero => simp
  | succ k ih =>
      rw [List.range_succ, List.map_append, List.sum_append, Finset.sum_range_succ, ih]
      simp

lemma darboux_general (n : ℕ) (f x : ℕ → ℚ) :
    darboux (sample f n) (sample x n)
      = (∑ i ∈ Finset.range (n - 1), min (f i) (f (i + 1)) * (x (i + 1) - x i),
         |(∑ i ∈ Finset.range (n - 1), max (f i) (f (i + 1)) * (x (i + 1) - x i))
           - ∑ i ∈ Finset.range (n - 1), min (f i) (f (i + 1)) * (x (i + 1) - x i)|) := by
  unfold darboux
  dsimp only
  rw [sample_zip_tail, sample_zip_tail, List.map_map, List.zip_map', List.map_map, List.map_map]
  rw [sum_map_range, sum_map_range]
  rfl

lemma darboux_staggered :
    darboux (sample (fun i => if i % 2 = 0 then 1 else 0) 100) (sample (fun i => (i : ℚ)) 100)
      = (0, 99) := by
  rw [darboux_general 100 (fun i => if i % 2 = 0 then 1 else 0) (fun i => (i : ℚ))]
  have hlow : (∑ i ∈ Finset.range (100 - 1),
      min ((fun i => if i % 2 = 0 then (1 : ℚ) else 0) i)
          ((fun i => if i % 2 = 0 then (1 : ℚ) else 0) (i + 1)) * (((i + 1 : ℕ) : ℚ) - (i : ℚ))) = 0 := by
    refine Finset.sum_eq_zero fun i _ => ?_
    rcases Nat.even_or_odd i with he | ho
    · have h1 : i % 2 = 0 := Nat.even_iff.mp he
      have h2 : (i + 1) % 2 = 1 := by omega
      simp [h1, h2]
    · have h1 : i % 2 = 1 := Nat.odd_iff.mp ho
      have h2 : (i + 1) % 2 = 0 := by omega
      simp [h1, h2]
  have hup : (∑ i ∈ Finset.range (100 - 1),
      max ((fun i => if i % 2 = 0 then (1 : ℚ) else 0) i)
          ((fun i => if i % 2 = 0 then (1 : ℚ) else 0) (i + 1)) * (((i + 1 : ℕ) : ℚ) - (i : ℚ))) = 99 := by
    have hone : ∀ i ∈ Finset.range (100 - 1),
        max ((fun i => if i % 2 = 0 then (1 : ℚ) else 0) i)
            ((fun i => if i % 2 = 0 then (1 : ℚ) else 0) (i + 1)) * (((i + 1 : ℕ) : ℚ) - (i : ℚ)) = 1 := by
      intro i _
      have hd : (((i + 1 : ℕ) : ℚ) - (i : ℚ)) = 1 := by push_cast; ring
      rcases Nat.even_or_odd i with he | ho
      · have h1 : i % 2 = 0 := Nat.even_iff.mp he
        have h2 : (i + 1) % 2 = 1 := by omega
        simp [h1, h2, hd]
      · have h1 : i % 2 = 1 := Nat.odd_iff.mp ho
        have h2 : (i + 1) % 2 = 0 := by omega
        simp [h1, h2, hd]
    rw [Finset.sum_congr rfl hone]
    simp
  rw [hlow, hup]
  norm_num

/-- C7: `darboux` on a strictly increasing partition of `n ≥ 2` points with
sampled function values returns the pair `(L, |U - L|)` with
`L = Σ min(f i, f (i+1)) · (x (i+1) - x i)` and `U` the corresponding
maximum sum; and on the staggered indicator sampled at `x = 0, …, 99` the
lower sum is `0` and the upper sum exceeds it by `99`. -/
theorem darboux_spec :
    (∀ (n : ℕ) (f x : ℕ → ℚ), 2 ≤ n → (∀ i, i + 1 < n → x i < x (i + 1)) →
      darboux (sample f n) (sample x n)
        = (∑ i ∈ Finset.range (n - 1), min (f i) (f (i + 1)) * (x (i + 1) - x i),
           |(∑ i ∈ Finset.range (n - 1), max (f i) (f (i + 1)) * (x (i + 1) - x i))
             - ∑ i ∈ Finset.range (n - 1), min (f i) (f (i + 1)) * (x (i + 1) - x i)|))
    ∧ darboux (sample (fun i => if i % 2 = 0 then 1 else 0) 100) (sample (fun i => (i : ℚ)) 100)
        = (0, 99) :=
  ⟨fun n f x _ _ => darboux_general n f x, darboux_staggered⟩

/-- Witness for `darboux_spec`: the formula instantiated on the strictly
increasing three-point partition `x = 0, 1, 2` with values `f = 0, 1, 2`,
evaluated to `(1, 2)`. -/
theorem darboux_spec_witness :
    darboux (sample (fun i => (i : ℚ)) 3) (sample (fun i => (i : ℚ)) 3) = (1, 2) := by
  have h := darboux_spec.1 3 (fun i => (i : ℚ)) (fun i => (i : ℚ)) (by norm_num)
    (by intro i _; show (i : ℚ) < ((i + 1 : ℕ) : ℚ); exact_mod_cast Nat.lt_succ_self i)
  rw [h]
  norm_num [Finset.sum_range_succ]

lemma evalList_append {r1 : List Obj} {s1 : List ℚ} (r2 : List Obj) (s2 : List ℚ)
    (E : ℚ) {v1 : ℚ} (hlen : r1.length = s1.length)
    (hv1 : Obj.evalList r1 s1 E = some v1) :
    Obj.evalList (r1 ++ r2) (s1 ++ s2) E
      = (Obj.evalList r2 s2 E).map fun v2 => v1 + v2 := by
  induction r1 generalizing s1 v1 with
  | nil =>
      cases s1 with
      | nil =>
          simp only [Obj.evalList] at hv1
          injection hv1 with hv1
          subst hv1
          cases h2 : Obj.evalList r2 s2 E <;> simp [h2]
      | cons b bs => simp at hlen
  | cons a as ih =>
      cases s1 with
      | nil => simp at hlen
      | cons b bs =>
          simp only [List.length_cons] at hlen
          have hlen2 : as.length = bs.length := by omega
          rw [List.cons_append, List.cons_append]
          simp only [Obj.evalList] at hv1 ⊢
          cases hae : a.eval E with
          | none => rw [hae] at hv1; simp at hv1
          | some v =>
              rw [hae] at hv1
              dsimp only at hv1
              cases hrest : Obj.evalList as bs E with
              | none => rw [hrest] at hv1; simp at hv1
              | some w =>
                  rw [hrest] at hv1
                  dsimp only at hv1
                  injection hv1 with hv1
                  rw [ih hlen2 hrest]
                  cases h2 : Obj.evalList r2 s2 E with
                  | none => simp
                  | some v2 =>
                      simp only [Option.map_some']
                      rw [← hv1]
                      congr 1
                      ring

lemma evalList_single (y : Obj) (k E : ℚ) {vy : ℚ} (hy : y.eval E = some vy) :
    Obj.evalList [y] [k] E = some (k * vy + 0) := by
  simp [Obj.evalList, hy]

lemma evalList_pair (x y : Obj) (E : ℚ) {vx vy : ℚ}
    (hx : x.eval E = some vx) (hy : y.eval E = some vy) :
    Obj.evalList [x, y] [1, 1] E = some (vx + vy) := by
  simp [Obj.evalList, hx, hy]

lemma eval_add_obj {a b : Obj} {E va vb : ℚ} (ha : a.WF)
    (hva : a.eval E = some va) (hvb : b.eval E = some vb) :
    (a.add (.obj b)).eval E = some (va + vb) := by
  cases a with
  | const c => exact evalList_pair _ b E hva hvb
  | abstr f => exact evalList_pair _ b E hva hvb
  | ws r s =>
      rcases ha with _ | _ | ⟨_, _, hlen, _⟩
      simp only [Obj.eval] at hva
      cases b with
      | ws r2 s2 =>
          simp only [Obj.eval] at hvb
          simp only [Obj.add, Obj.eval]
          rw [evalList_append r2 s2 E hlen hva, hvb]
          simp
      | const c2 =>
          simp only [Obj.add, Obj.eval]
          rw [evalList_append [Obj.const c2] [1] E hlen hva, evalList_single _ 1 E hvb]
          simp
      | abstr f2 =>
          simp only [Obj.add, Obj.eval]
          rw [evalList_append [Obj.abstr f2] [1] E hlen hva, evalList_single _ 1 E hvb]
          simp

lemma eval_add_num {a : Obj} {E va : ℚ} (q : ℚ) (ha : a.WF)
    (hva : a.eval E = some va) :
    (a.add (.num q)).eval E = some (va + q) := by
  have hq : (Obj.const q).eval E = some q := rfl
  cases a with
  | const c => exact evalList_pair _ _ E hva hq
  | abstr f => exact evalList_pair _ _ E hva hq
  | ws r s =>
      rcases ha with _ | _ | ⟨_, _, hlen, _⟩
      simp only [Obj.eval] at hva
      simp only [Obj.add, Obj.eval]
      rw [evalList_append [Obj.const q] [1] E hlen hva, evalList_single _ 1 E hq]
      simp

lemma add_num_WF {a : Obj} (q : ℚ) (ha : a.WF) : (a.add (.num q)).WF := by
  cases a with
  | const c =>
      refine Obj.WF.ws _ _ rfl ?_
      intro o ho
      simp only [Obj.add, List.mem_cons, List.not_mem_nil, or_false] at ho
      rcases ho with h | h
      · rw [h]; exact Obj.WF.const c
      · rw [h]; exact Obj.WF.const q
  | abstr f =>
      refine Obj.WF.ws _ _ rfl ?_
      intro o ho
      simp only [Obj.add, List.mem_cons, List.not_mem_nil, or_false] at ho
      rcases ho with h | h
      · rw [h]; exact Obj.WF.abstr f
      · rw [h]; exact Obj.WF.const q
  | ws r s =>
      rcases ha with _ | _ | ⟨_, _, hlen, hmem⟩
      refine Obj.WF.ws _ _ (by simp [hlen]) ?_
      intro o ho
      rcases List.mem_append.mp ho with h | h
      · exact hmem o h
      · rw [List.mem_singleton.mp h]; exact Obj.WF.const q

/-- C2: for a well-formed cross-section object `a`, any cross-section
object `b`, and any energy `E` at which both evaluate, the composite
obtained by addition satisfies `(a + b)(E) = a(E) + b(E)`; and
`sum([a, b])`, which Python expands from its integer-`0` seed as
`(0 + a) + b` with the seed auto-wrapped as a constant cross section, has
the same value at `E`. -/
theorem cross_section_additivity (a b : Obj) (E va vb : ℚ)
    (ha : a.WF) (hva : a.eval E = some va) (hvb : b.eval E = some vb) :
    (a.add (.obj b)).eval E = some (va + vb)
    ∧ ((a.add (.num 0)).add (.obj b)).eval E = some (va + vb) := by
  refine ⟨eval_add_obj ha hva hvb, ?_⟩
  have h0 : (a.add (.num 0)).eval E = some (va + 0) := eval_add_num 0 ha hva
  have h := eval_add_obj (add_num_WF 0 ha) h0 hvb
  rw [h]
  norm_num

/-- Witness for `cross_section_additivity`: two constant cross sections of
values `2` and `3` evaluated at energy `1`. -/
theorem cross_section_additivity_witness :
    ((Obj.const 2).add (.obj (.const 3))).eval 1 = some (2 + 3)
    ∧ (((Obj.const 2).add (.num 0)).add (.obj (.const 3))).eval 1 = some (2 + 3) :=
  cross_section_additivity (.const 2) (.const 3) 1 2 3 (Obj.WF.const 2) rfl rfl

/-- C3 counterexample: adding a `CrossSectionWeightedSum` to a plain
`CrossSection` on the left calls `CrossSection.__add__`, which stores the
whole weighted sum as a single element of the result's `reactions` list,
so the result is not flat. -/
theorem add_nesting_counterexample :
    ((Obj.const 1).add (.obj (.ws [.const 2] [1]))).reactionsList.any Obj.isWS = true := rfl

/-- C3 amended: every addition returns a `CrossSectionWeightedSum`, and
whenever the operands' own reaction lists are flat, the result's reactions
list is the flat union of the operands' constituents — except in the one
case of `CrossSection + CrossSectionWeightedSum` with the plain cross
section on the left, where the weighted sum is nested as a single
element. -/
theorem add_flattening_amended (a : Obj) (op : Operand)
    (hfa : a.flat) (hfop : op.flat)
    (hexc : a.isWS = true ∨ op.isWS = false) :
    (a.add op).isWS = true ∧ (a.add op).flat := by
  cases a with
  | ws r s =>
      cases op with
      | num q =>
          refine ⟨rfl, ?_⟩
          intro o ho
          rcases List.mem_append.mp ho with h | h
          · exact hfa o h
          · rw [List.mem_singleton.mp h]; rfl
      | obj o =>
          cases o with
          | ws r2 s2 =>
              refine ⟨rfl, ?_⟩
              intro o ho
              rcases List.mem_append.mp ho with h | h
              · exact hfa o h
              · exact hfop o h
          | const c2 =>
              refine ⟨rfl, ?_⟩
              intro o ho
              rcases List.mem_append.mp ho with h | h
              · exact hfa o h
              · rw [List.mem_singleton.mp h]; rfl
          | abstr f2 =>
              refine ⟨rfl, ?_⟩
              intro o ho
              rcases List.mem_append.mp ho with h | h
              · exact hfa o h
              · rw [List.mem_singleton.mp h] ; rfl
  | const c =>
      cases op with
      | num q =>
          refine ⟨rfl, ?_⟩
          intro o ho
          simp only [List.mem_cons, List.not_mem_nil, or_false] at ho
          rcases ho with h | h <;> (rw [h]; rfl)
      | obj o =>
          rcases hexc with h | h
          · cases h
          · refine ⟨rfl, ?_⟩
            intro x hx
            simp only [Obj.add, List.mem_cons, List.not_mem_nil, or_false] at hx
            rcases hx with hx | hx
            · rw [hx]; rfl
            · rw [hx]; exact h
  | abstr f =>
      cases op with
      | num q =>
          refine ⟨rfl, ?_⟩
          intro o ho
          simp only [List.mem_cons, List.not_mem_nil, or_false] at ho
          rcases ho with h | h <;> (rw [h]; rfl)
      | obj o =>
          rcases hexc with h | h
          · cases h
          · refine ⟨rfl, ?_⟩
            intro x hx
            simp only [Obj.add, List.mem_cons, List.not_mem_nil, or_false] at hx
            rcases hx with hx | hx
            · rw [hx]; rfl
            · rw [hx]; exact h

/-- Witness for `add_flattening_amended`: merging two flat weighted
sums. -/
theorem add_flattening_amended_witness :
    ((Obj.ws [.const 1] [1]).add (.obj (.ws [.const 2] [3]))).isWS = true
    ∧ ((Obj.ws [.const 1] [1]).add (.obj (.ws [.const 2] [3]))).flat :=
  add_flattening_amended _ _
    (by intro o ho; rw [List.mem_singleton.mp ho]; rfl)
    (by intro o ho; rw [List.mem_singleton.mp ho]; rfl)
    (Or.inl rfl)

/-- C9: the public operations preserve `len(reactions) ==
len(scale_factors)`: construction with the scale factors omitted or of
matching length, addition of a scalar, a cross section or another
weighted sum, and multiplication by a scalar. -/
theorem weighted_sum_length_invariant :
    (∀ rs : List Obj, (wsInit rs none).topLenEq)
    ∧ (∀ (rs : List Obj) (sf : List ℚ), sf.length = rs.length →
        (wsInit rs (some sf)).topLenEq)
    ∧ (∀ (a : Obj) (op : Operand), a.topLenEq → op.topLenEq → (a.add op).topLenEq)
    ∧ (∀ (a : Obj) (k : ℚ), a.topLenEq → (a.mulScalar k).topLenEq) := by
  refine ⟨?_, ?_, ?_, ?_⟩
  · intro rs
    simp [wsInit, Obj.topLenEq]
  · intro rs sf h
    simp [wsInit, Obj.topLenEq, h]
  · intro a op ha hop
    cases a with
    | ws r s =>
        cases op with
        | num q => simp only [Obj.topLenEq] at ha; simp [Obj.add, Obj.topLenEq, ha]
        | obj o =>
            cases o with
            | ws r2 s2 =>
                simp only [Obj.topLenEq, Operand.topLenEq] at ha hop
                simp [Obj.add, Obj.topLenEq, ha, hop]
            | const c2 => simp only [Obj.topLenEq] at ha; simp [Obj.add, Obj.topLenEq, ha]
            | abstr f2 => simp only [Obj.topLenEq] at ha; simp [Obj.add, Obj.topLenEq, ha]
    | const c => cases op with
        | num q => exact rfl
        | obj o => exact rfl
    | abstr f => cases op with
        | num q => exact rfl
        | obj o => exact rfl
  · intro a k ha
    cases a with
    | ws r s => simp only [Obj.topLenEq] at ha; simp [Obj.mulScalar, Obj.topLenEq, ha]
    | const c => exact rfl
    | abstr f => exact rfl

/-- Witness for `weighted_sum_length_invariant`: each operation applied to
a one-element weighted sum. -/
theorem weighted_sum_length_invariant_witness :
    (wsInit [Obj.const 1] none).topLenEq
    ∧ (wsInit [Obj.const 1] (some [2])).topLenEq
    ∧ ((Obj.ws [.const 1] [1]).add (.num 0)).topLenEq
    ∧ ((Obj.ws [.const 1] [1]).mulScalar 2).topLenEq :=
  ⟨weighted_sum_length_invariant.1 [Obj.const 1],
   weighted_sum_length_invariant.2.1 [Obj.const 1] [2] rfl,
   weighted_sum_length_invariant.2.2.1 _ _ rfl trivial,
   weighted_sum_length_invariant.2.2.2 _ 2 rfl⟩

lemma mkResonance_fields {C : ℚ} {recoil : ℚ → ℚ} {initial intermediate : State}
    {final : Option State} {r : Resonance}
    (h : mkResonance C recoil initial intermediate final = some r) :
    r.initial_state = initial ∧ r.intermediate_state = intermediate
    ∧ r.final_state = final
    ∧ r.resonance_energy
        = recoil (intermediate.excitation_energy - initial.excitation_energy)
    ∧ r.energy_integrated_cross_section_constant = C
    ∧ r.statistical_factor = get_statistical_factor initial intermediate
    ∧ r.probability_distribution = uniformDist
    ∧ r.probability_distribution_parameters = [r.resonance_energy - 1/2, 1]
    ∧ ∃ w br, intermediate.partial_widths.lookup initial.J_pi = some w
        ∧ get_final_state_branching_ratio_opt intermediate final = some br
        ∧ r.final_state_branching_ratio = br
        ∧ r.energy_integrated_cross_section
            = C / (recoil (intermediate.excitation_energy - initial.excitation_energy)) ^ 2
                * get_statistical_factor initial intermediate * w * br := by
  unfold mkResonance at h
  dsimp only at h
  split at h
  · exact absurd h (by simp)
  · split at h
    · exact absurd h (by simp)
    · next br hbr =>
        split at h
        · exact absurd h (by simp)
        · next w hw =>
            split at h
            · exact absurd h (by simp)
            · injection h with h
              subst h
              refine ⟨rfl, rfl, rfl, rfl, rfl, rfl, rfl, rfl, w, br, hw, hbr, rfl, rfl⟩

/-- C1: for every successfully constructed resonance (initial and
intermediate state, optional final state, default identity recoil), the
stored `energy_integrated_cross_section` equals the specification's
closed form `C · (2J₂+1)/(2J₀+1) · Γ₂→₀ · branching_ratio / E_r²`, where
`C` is the stored constant `(π ħc)²`, the statistical factor is computed
from the stored doubled spins, and the branching ratio is `1` without a
final state and `Γ₂→₁ / Γ₂` with one. -/
theorem resonance_energy_integrated_cross_section_spec
    (C : ℚ) (initial intermediate : State) (final : Option State) (r : Resonance)
    (h : mkResonance C id initial intermediate final = some r) :
    spec_energy_integrated_cross_section C initial intermediate final
      = some r.energy_integrated_cross_section := by
  obtain ⟨-, -, -, -, -, -, -, -, w, br, hw, hbr, -, hcs⟩ := mkResonance_fields h
  cases final with
  | none =>
      simp only [get_final_state_branching_ratio_opt] at hbr
      injection hbr with hbr
      unfold spec_energy_integrated_cross_section
      rw [hw]
      dsimp only
      rw [hcs, ← hbr]
      simp only [id]
      congr 1
      unfold get_statistical_factor
      ring
  | some fs =>
      simp only [get_final_state_branching_ratio_opt] at hbr
      cases hwf : intermediate.partial_widths.lookup fs.J_pi with
      | none => rw [hwf] at hbr; simp at hbr
      | some wf =>
          rw [hwf] at hbr
          dsimp only at hbr
          split at hbr
          · exact absurd hbr (by simp)
          · injection hbr with hbr
            unfold spec_energy_integrated_cross_section
            rw [hw]
            dsimp only
            rw [hwf]
            dsimp only
            rw [hcs, ← hbr]
            simp only [id]
            congr 1
            unfold get_statistical_factor
            ring

lemma wit_mk : mkResonance 1 id wit_ground wit_excited none = some wit_resonance := by
  norm_num [mkResonance, wit_ground, wit_excited, wit_resonance,
    get_final_state_branching_ratio_opt, get_statistical_factor, List.lookup]

/-- Witness for `resonance_energy_integrated_cross_section_spec`: the
concrete resonance built from `wit_ground` and `wit_excited`. -/
theorem resonance_energy_integrated_cross_section_spec_witness :
    spec_energy_integrated_cross_section 1 wit_ground wit_excited none
      = some wit_resonance.energy_integrated_cross_section :=
  resonance_energy_integrated_cross_section_spec 1 wit_ground wit_excited none
    wit_resonance wit_mk

lemma uniformDist_pdf (x : ℚ) (ps : List ℚ) :
    uniformDist.pdf x ps =
      if (paramsLocScale ps).1 ≤ x ∧ x ≤ (paramsLocScale ps).1 + (paramsLocScale ps).2
      then 1 / (paramsLocScale ps).2 else 0 := rfl

/-- C10: a base resonance constructed without a concrete shape subclass
defaults to the uniform box of width 1 MeV centered on the resonance
energy: every absolute energy inside
`[resonance_energy - 1/2, resonance_energy + 1/2]` evaluates to exactly
`energy_integrated_cross_section`, every energy outside it to `0`. -/
theorem default_uniform_resonance (C : ℚ) (initial intermediate : State)
    (final : Option State) (r : Resonance)
    (h : mkResonance C id initial intermediate final = some r) :
    (∀ E : ℚ, r.resonance_energy - 1/2 ≤ E → E ≤ r.resonance_energy + 1/2 →
        r.call E true = r.energy_integrated_cross_section)
    ∧ (∀ E : ℚ, (E < r.resonance_energy - 1/2 ∨ r.resonance_energy + 1/2 < E) →
        r.call E true = 0) := by
  obtain ⟨-, -, -, -, -, -, hdist, hparams, -⟩ := mkResonance_fields h
  constructor
  · intro E hlo hhi
    simp only [Resonance.call, if_true]
    rw [hdist, hparams, uniformDist_pdf]
    have hcond : (paramsLocScale [r.resonance_energy - 1/2, 1]).1 ≤ E
        ∧ E ≤ (paramsLocScale [r.resonance_energy - 1/2, 1]).1
            + (paramsLocScale [r.resonance_energy - 1/2, 1]).2 := by
      constructor
      · simpa [paramsLocScale] using hlo
      · show E ≤ r.resonance_energy - 1/2 + 1
        linarith
    rw [if_pos hcond]
    show r.energy_integrated_cross_section * (1 / (1:ℚ)) = _
    norm_num
  · intro E hout
    simp only [Resonance.call, if_true]
    rw [hdist, hparams, uniformDist_pdf]
    have hcond : ¬ ((paramsLocScale [r.resonance_energy - 1/2, 1]).1 ≤ E
        ∧ E ≤ (paramsLocScale [r.resonance_energy - 1/2, 1]).1
            + (paramsLocScale [r.resonance_energy - 1/2, 1]).2) := by
      simp only [paramsLocScale, not_and, not_le]
      intro h1
      rcases hout with h2 | h2
      · linarith
      · linarith
    rw [if_neg hcond]
    norm_num

/-- Witness for `default_uniform_resonance`: the witness resonance has
resonance energy `2`, so it evaluates to its energy-integrated cross
section at `2` and to `0` at `4`. -/
theorem default_uniform_resonance_witness :
    wit_resonance.call 2 true = wit_resonance.energy_integrated_cross_section
    ∧ wit_resonance.call 4 true = 0 :=
  ⟨(default_uniform_resonance 1 wit_ground wit_excited none wit_resonance wit_mk).1 2
      (by norm_num [wit_resonance]) (by norm_num [wit_resonance]),
   (default_uniform_resonance 1 wit_ground wit_excited none wit_resonance wit_mk).2 4
      (Or.inr (by norm_num [wit_resonance]))⟩

lemma linspace_length (a b : ℚ) (n : ℕ) : (linspace a b n).length = n := by
  unfold linspace
  split
  · simp [*]
  · split
    · simp [*]
    · simp

/-- C6: for every resonance object, explicit limits `lo < hi` and `n ≥ 2`
grid points, the equidistant-probability grid starts with exactly `lo`
and ends with exactly `hi`, whatever the shape model's distribution
does. -/
theorem probability_grid_endpoints (r : Resonance) (lo hi : ℚ) (n : ℕ)
    (hlt : lo < hi) (hn : 2 ≤ n) :
    (r.equidistant_probability_grid (.limits lo hi) n).head? = some (.fin lo)
    ∧ (r.equidistant_probability_grid (.limits lo hi) n).getLast? = some (.fin hi) := by
  unfold Resonance.equidistant_probability_grid
  dsimp only
  set g := (linspace (r.probability_distribution.cdf lo r.probability_distribution_parameters)
      (r.probability_distribution.cdf hi r.probability_distribution_parameters) n).map
      (fun q => r.probability_distribution.ppf q r.probability_distribution_parameters)
    with hg
  have hglen : g.length = n := by rw [hg, List.length_map, linspace_length]
  have hlen1 : (g.set 0 (.fin lo)).length = n := by rw [List.length_set, hglen]
  have hlen2 : ((g.set 0 (.fin lo)).set (g.length - 1) (.fin hi)).length = n := by
    rw [List.length_set, hlen1]
  constructor
  · rw [List.head?_eq_getElem?]
    rw [List.getElem?_set_ne (by omega : g.length - 1 ≠ 0)]
    exact List.getElem?_set_self (by omega)
  · rw [List.getLast?_eq_getElem?, hlen2]
    rw [show ((g.set 0 (.fin lo)).set (g.length - 1) (.fin hi))[n - 1]?
          = ((g.set 0 (.fin lo)).set (g.length - 1) (.fin hi))[g.length - 1]? by rw [hglen]]
    exact List.getElem?_set_self (by omega)

/-- Witness for `probability_grid_endpoints`: a four-point grid of the
witness resonance between `1` and `3`. -/
theorem probability_grid_endpoints_witness :
    (wit_resonance.equidistant_probability_grid (.limits 1 3) 4).head? = some (.fin 1)
    ∧ (wit_resonance.equidistant_probability_grid (.limits 1 3) 4).getLast? = some (.fin 3) :=
  probability_grid_endpoints wit_resonance 1 3 4 (by norm_num) (by norm_num)

/-- C4 (the code bug made concrete): for the base resonance at
`E_r = 1/5 MeV` — box distribution parameters `(-3/10, 1)` —
`coverage_interval(0.9)` returns the unclamped quantile pair
`(-1/4, 13/20)` and warns with the percentage `100`, computed from
`cdf(0.0)` of the **standard** distribution (no parameters passed),
although `1 - cdf(0)` at the resonance's own parameters is `7/10`, so the
message should quote `70`. -/
theorem coverage_warning_default_params_bug :
    ((mkResonance 1 id c4_ground c4_excited none).map fun r =>
        (r.coverage_interval (9/10),
         100 * (1 - r.probability_distribution.cdf 0 r.probability_distribution_parameters)))
      = some (((.fin (-(1/4)), .fin (13/20)), [.negativeLowerLimit 100]), 70) := by
  have hmk : mkResonance 1 id c4_ground c4_excited none = some {
      initial_state := c4_ground
      intermediate_state := c4_excited
      final_state := none
      resonance_energy := 1/5
      energy_integrated_cross_section_constant := 1
      statistical_factor := 3
      final_state_branching_ratio := 1
      energy_integrated_cross_section := 75
      probability_distribution := uniformDist
      probability_distribution_parameters := [-(3/10), 1] } := by
    norm_num [mkResonance, c4_ground, c4_excited,
      get_final_state_branching_ratio_opt, get_statistical_factor, List.lookup]
  rw [hmk]
  norm_num [Resonance.coverage_interval, uniformDist, paramsLocScale, PyVal.ltZero,
    PyVal.isInf]

/-- C5: the pseudo-Voigt PPF (inherited unchanged by the Voigt model's
`SemiPseudoVoigtDistribution`): when the Newton-Raphson call raises its
non-convergence `RuntimeError`, a warning is emitted and the fallback
linear combination `(1-η)·norm.ppf + η·cauchy.ppf` is returned — applied
to every quantile of an array call; when all values converge, the Newton
roots are returned unchanged and no warning is emitted. -/
theorem pseudo_voigt_ppf_fallback (norm_ppf cauchy_ppf : ℚ → ℚ → ℚ → ℚ) (sqrt2 : ℚ)
    (pv : PseudoVoigtDistribution) :
    (∀ (q : ℚ) (newton : Except Unit (ℚ × Bool)), newton = .error () →
      pv.ppf_scalar norm_ppf cauchy_ppf sqrt2 q newton
        = (some ((1 - pv.eta) * norm_ppf q pv.resonance_energy (pv.gamma_G / sqrt2)
            + pv.eta * cauchy_ppf q pv.resonance_energy (1/2 * pv.gamma_L)), true))
    ∧ (∀ (qs : List ℚ) (newton : Except Unit (List ℚ × List Bool)), newton = .error () →
      pv.ppf_array norm_ppf cauchy_ppf sqrt2 qs newton
        = (some (qs.map fun q => (1 - pv.eta) * norm_ppf q pv.resonance_energy (pv.gamma_G / sqrt2)
            + pv.eta * cauchy_ppf q pv.resonance_energy (1/2 * pv.gamma_L)), true))
    ∧ (∀ (q root : ℚ) (newton : Except Unit (ℚ × Bool)), newton = .ok (root, true) →
      pv.ppf_scalar norm_ppf cauchy_ppf sqrt2 q newton = (some root, false))
    ∧ (∀ (qs roots : List ℚ) (convs : List Bool)
        (newton : Except Unit (List ℚ × List Bool)), newton = .ok (roots, convs) →
        (∀ b ∈ convs, b = true) →
      pv.ppf_array norm_ppf cauchy_ppf sqrt2 qs newton = (some roots, false)) := by
  refine ⟨?_, ?_, ?_, ?_⟩
  · intro q newton h
    subst h
    rfl
  · intro qs newton h
    subst h
    rfl
  · intro q root newton h
    subst h
    rfl
  · intro qs roots convs newton h hall
    subst h
    simp only [PseudoVoigtDistribution.ppf_array]
    rw [if_neg fun hmem => by simpa using hall false hmem]

/-- Witness for `pseudo_voigt_ppf_fallback`: a `RuntimeError` outcome on a
scalar call and a fully converged array outcome. -/
theorem pseudo_voigt_ppf_fallback_witness :
    (PseudoVoigtDistribution.mk 5 (1/3) 2 1).ppf_scalar
        (fun q _ _ => q) (fun q _ _ => q) 1 (1/2) (.error ())
      = (some ((1 - (1/3 : ℚ)) * (1/2) + (1/3 : ℚ) * (1/2)), true)
    ∧ (PseudoVoigtDistribution.mk 5 (1/3) 2 1).ppf_array
        (fun q _ _ => q) (fun q _ _ => q) 1 [1/2] (.ok ([7], [true]))
      = (some [7], false) :=
  ⟨(pseudo_voigt_ppf_fallback (fun q _ _ => q) (fun q _ _ => q) 1
      (PseudoVoigtDistribution.mk 5 (1/3) 2 1)).1 (1/2) (.error ()) rfl,
   (pseudo_voigt_ppf_fallback (fun q _ _ => q) (fun q _ _ => q) 1
      (PseudoVoigtDistribution.mk 5 (1/3) 2 1)).2.2.2 [1/2] [7] [true] (.ok ([7], [true])) rfl
      (by simp)⟩

lemma dictSet_append {α : Type} (k : String) (v : α) :
    ∀ (d : List (String × α)), (∀ av ∈ d, av.1 ≠ k) → dictSet d k v = d ++ [(k, v)] := by
  intro d
  induction d with
  | nil => intro _; rfl
  | cons hd tl ih =>
      intro h
      unfold dictSet
      rw [if_neg (h hd (List.mem_cons_self hd tl))]
      rw [ih fun av hav => h av (List.mem_cons_of_mem hd hav)]
      rfl

lemma foldl_dictSet_eq {α β : Type} (key : α → String) (val : α → β) (P : α → Bool) :
    ∀ (l : List α) (acc : List (String × β)),
      (∀ x ∈ l, P x = true → ∀ av ∈ acc, av.1 ≠ key x) →
      ((l.filter P).map key).Nodup →
      l.foldl (fun acc x => if P x then dictSet acc (key x) (val x) else acc) acc
        = acc ++ (l.filter P).map (fun x => (key x, val x)) := by
  intro l
  induction l with
  | nil => intro acc _ _; simp
  | cons hd tl ih =>
      intro acc hfresh hnodup
      rw [List.foldl_cons]
      cases hP : P hd with
      | false =>
          rw [if_neg (by simp [hP])]
          rw [ih acc (fun x hx hPx av hav => hfresh x (List.mem_cons_of_mem hd hx) hPx av hav)
            (by rwa [List.filter_cons_of_neg (by simp [hP])] at hnodup)]
          rw [List.filter_cons_of_neg (by simp [hP])]
      | true =>
          rw [if_pos (by simp [hP])]
          rw [List.filter_cons_of_pos (by simp [hP])] at hnodup ⊢
          simp only [List.map_cons, List.nodup_cons] at hnodup
          rw [dictSet_append _ _ acc (hfresh hd (List.mem_cons_self hd tl) hP)]
          rw [ih (acc ++ [(key hd, val hd)]) ?_ hnodup.2]
          · simp
          · intro x hx hPx av hav
            rcases List.mem_append.mp hav with h | h
            · exact hfresh x (List.mem_cons_of_mem hd hx) hPx av h
            · rw [List.mem_singleton.mp h]
              intro hcontra
              have hxx : key hd = key x := hcontra
              exact hnodup.1 (hxx ▸ List.mem_map_of_mem key (List.mem_filter.mpr ⟨hx, hPx⟩))

lemma lookup_of_mem {α : Type} :
    ∀ (l : List (String × α)), (l.map Prod.fst).Nodup →
      ∀ kv ∈ l, l.lookup kv.1 = some kv.2 := by
  intro l
  induction l with
  | nil => intro _ kv hkv; cases hkv
  | cons hd tl ih =>
      intro hnodup kv hkv
      simp only [List.map_cons, List.nodup_cons] at hnodup
      rcases List.mem_cons.mp hkv with h | h
      · subst h
        simp [List.lookup]
      · have hne : hd.1 ≠ kv.1 := by
          intro hcontra
          exact hnodup.1 (hcontra ▸ List.mem_map_of_mem Prod.fst h)
        have hbeq : (kv.1 == hd.1) = false := by
          rw [beq_eq_false_iff_ne]
          exact fun hc => hne hc.symm
        rw [List.lookup, hbeq]
        exact ih hnodup.2 kv h

lemma foldl_dictSet_eq_all {α β : Type} (key : α → String) (val : α → β) :
    ∀ (l : List α) (acc : List (String × β)),
      (∀ x ∈ l, ∀ av ∈ acc, av.1 ≠ key x) → (l.map key).Nodup →
      l.foldl (fun acc x => dictSet acc (key x) (val x)) acc
        = acc ++ l.map fun x => (key x, val x) := by
  intro l acc h hn
  have hfd := foldl_dictSet_eq key val (fun _ => true) l acc (fun x hx _ => h x hx)
    (by simpa using hn)
  simpa using hfd

lemma get_resonances_eq (iso : Isotope) (model : State → State → (ℚ → ℚ))
    (hnodup : (iso.excited_states.map fun kv => kv.2.J_pi).Nodup) :
    get_resonances iso model
      = (iso.excited_states.filter fun kv =>
          (kv.2.partial_widths.lookup iso.ground_state.J_pi).isSome).map
          fun kv => (kv.2.J_pi, model iso.ground_state kv.2) := by
  unfold get_resonances
  rw [foldl_dictSet_eq (fun kv => kv.2.J_pi) (fun kv => model iso.ground_state kv.2)
    (fun kv => (kv.2.partial_widths.lookup iso.ground_state.J_pi).isSome)
    iso.excited_states [] (by intro x _ _ av hav; cases hav) ?_]
  · simp
  · exact ((List.filter_sublist iso.excited_states).map fun kv => kv.2.J_pi).nodup hnodup

lemma element_pacs_eq (el : Element) (models : String → State → State → (ℚ → ℚ))
    (hAX : ∀ kv ∈ el.isotopes, kv.2.AX = kv.1)
    (hnodup : (el.isotopes.map Prod.fst).Nodup) :
    element_pacs el models
      = el.isotopes.map fun kv => (kv.1, isotope_call kv.2 (models kv.1)) := by
  unfold element_pacs
  have hkeys : (el.isotopes.map fun kv => kv.2.AX) = el.isotopes.map Prod.fst :=
    List.map_congr_left fun kv hkv => hAX kv hkv
  rw [foldl_dictSet_eq_all (fun kv => kv.2.AX) (fun kv => isotope_call kv.2 (models kv.1))
    el.isotopes [] (by intro x _ av hav; cases hav) (by rw [hkeys]; exact hnodup)]
  rw [List.nil_append]
  exact List.map_congr_left fun kv hkv => by rw [hAX kv hkv]

/-- C8 counterexample: the ¹⁰B test isotope has exactly one excited state,
whose partial width back to the ground state is stored as `0.0`; the code
still builds one resonance model for it (the membership test
`ground_state.J_pi in partial_widths` does not inspect the value), while
the claim's nonzero-width criterion selects no state. -/
theorem photoabsorption_zero_width_counterexample :
    (get_resonances b10 fun _ _ _ => 0).length = 1
    ∧ (b10.excited_states.filter fun kv =>
        match kv.2.partial_widths.lookup b10.ground_state.J_pi with
        | some w => decide (w ≠ 0)
        | none => false).length = 0 := by
  constructor
  · rfl
  · simp [b10, b10_excited, b10_ground, List.lookup]

/-- C8 amended: one resonance model is built per excited state whose
partial-widths dictionary **contains** the ground state's identifier
(even with value zero), keyed by the excited state's `J_pi`, and the
isotope cross section evaluates to the sum of those models; the element
cross section evaluates to the abundance-weighted sum of its isotopes'
aggregations (keys assumed consistent and distinct, as in the data
model). -/
theorem photoabsorption_aggregation_amended :
    (∀ (iso : Isotope) (model : State → State → (ℚ → ℚ)),
      (iso.excited_states.map fun kv => kv.2.J_pi).Nodup →
      get_resonances iso model
        = (iso.excited_states.filter fun kv =>
            (kv.2.partial_widths.lookup iso.ground_state.J_pi).isSome).map
            (fun kv => (kv.2.J_pi, model iso.ground_state kv.2))
      ∧ ∀ energy : ℚ, isotope_call iso model energy
          = ((iso.excited_states.filter fun kv =>
              (kv.2.partial_widths.lookup iso.ground_state.J_pi).isSome).map
              fun kv => model iso.ground_state kv.2 energy).sum)
    ∧ (∀ (el : Element) (models : String → State → State → (ℚ → ℚ)) (abun : String → ℚ)
        (energy : ℚ),
        (∀ kv ∈ el.isotopes, kv.2.AX = kv.1) →
        (el.isotopes.map Prod.fst).Nodup →
        (∀ kv ∈ el.isotopes, el.abundances.lookup kv.1 = some (abun kv.1)) →
        element_call el models energy
          = some ((el.isotopes.map fun kv =>
              abun kv.1 * isotope_call kv.2 (models kv.1) energy).sum)) := by
  constructor
  · intro iso model hnodup
    refine ⟨get_resonances_eq iso model hnodup, ?_⟩
    intro energy
    unfold isotope_call
    rw [get_resonances_eq iso model hnodup, List.map_map]
    rfl
  · intro el models abun energy hAX hnodup habun
    have hlookup : ∀ kv ∈ el.isotopes,
        (element_pacs el models).lookup kv.1 = some (isotope_call kv.2 (models kv.1)) := by
      intro kv hkv
      rw [element_pacs_eq el models hAX hnodup]
      have hnd2 : ((el.isotopes.map fun kv =>
          (kv.1, isotope_call kv.2 (models kv.1))).map Prod.fst).Nodup := by
        rw [List.map_map]
        simpa [Function.comp] using hnodup
      have hl := lookup_of_mem _ hnd2 (kv.1, isotope_call kv.2 (models kv.1))
        (List.mem_map_of_mem _ hkv)
      simpa using hl
    unfold element_call
    suffices hgo : ∀ l : List (String × Isotope), (∀ kv ∈ l, kv ∈ el.isotopes) →
        element_call_go el models energy l
          = some ((l.map fun kv => abun kv.1 * isotope_call kv.2 (models kv.1) energy).sum) by
      exact hgo el.isotopes fun kv h => h
    intro l
    induction l with
    | nil => intro _; rfl
    | cons hd tl ih =>
        intro hmem
        obtain ⟨k, iso⟩ := hd
        have hmem0 : (k, iso) ∈ el.isotopes := hmem _ (List.mem_cons_self _ _)
        have hab := habun (k, iso) hmem0
        have hpl := hlookup (k, iso) hmem0
        simp only [element_call_go]
        rw [hab]
        dsimp only
        rw [hpl]
        dsimp only
        rw [ih fun kv h => hmem kv (List.mem_cons_of_mem _ h)]
        dsimp only
        rw [List.map_cons, List.sum_cons]

/-- Witness for `photoabsorption_aggregation_amended`: the witness isotope
with one included and one excluded excited state inside a one-isotope
element. -/
theorem photoabsorption_aggregation_amended_witness :
    (get_resonances wit8_iso (wit8_model "1Q")
      = (wit8_iso.excited_states.filter fun kv =>
          (kv.2.partial_widths.lookup wit8_iso.ground_state.J_pi).isSome).map
          (fun kv => (kv.2.J_pi, wit8_model "1Q" wit8_iso.ground_state kv.2)))
    ∧ element_call wit8_el wit8_model 1
        = some ((wit8_el.isotopes.map fun kv =>
            (fun _ : String => (1/2 : ℚ)) kv.1 * isotope_call kv.2 (wit8_model kv.1) 1).sum) :=
  ⟨(photoabsorption_aggregation_amended.1 wit8_iso (wit8_model "1Q") (by decide)).1,
   photoabsorption_aggregation_amended.2 wit8_el wit8_model (fun _ => 1/2) 1
     (by decide) (by decide)
     (by intro kv hkv; rw [List.mem_singleton.mp hkv]; rfl)⟩

end Ries
